import Mathlib

/-!
Verification of the field-reconciliation and serialization engine of
genabout.py (about-code-tool, version 0.9.0): the merge policies of
GenAbout.pre_generation, the serializer GenAbout.format_output,
target-location resolution, and the row filter of GenAbout.read_input,
embedded shallowly over association lists of string-valued fields.
-/

/-- A record: a mapping from field name to string value, as a Python dict is,
embedded as an association list whose keys are meant to be distinct. -/
abbrev Record := List (String × String)

/-- Dict lookup: `line[k]`, and `k in line.keys()` as `(getVal line k).isSome`. -/
def getVal : Record → String → Option String
  | [], _ => none
  | kv :: rest, k => if kv.1 = k then some kv.2 else getVal rest k

/-- Dict update `line[k] = v`: replaces the binding when the key is present,
appends the binding otherwise. -/
def setVal : Record → String → String → Record
  | [], k, v => [(k, v)]
  | kv :: rest, k, v => if kv.1 = k then (k, v) :: rest else kv :: setVal rest k v

/-- The key list of a record, `line.keys()`. -/
def keysOf (r : Record) : List String := r.map Prod.fst

/-- Python 2 `str.lower` on a single byte: only A-Z (65-90) are mapped. -/
def lowerChar (c : Char) : Char :=
  if 65 ≤ c.toNat ∧ c.toNat ≤ 90 then Char.ofNat (c.toNat + 32) else c

/-- Python 2 `str.lower` (`field_name.lower()` in pre_generation). -/
def lowerStr (s : String) : String := ⟨s.data.map lowerChar⟩

/-- genabout.py line 39. -/
def MANDATORY_FIELDS : List String := ["about_resource", "name", "version"]

/-- genabout.py line 40. -/
def SKIPPED_FIELDS : List String := ["warnings", "errors"]

/-- genabout.py line 42: `Warn = namedtuple('Warn', 'field_name field_value message')`. -/
structure Warn where
  field_name : String
  field_value : String
  message : String
deriving DecidableEq

/-- One iteration of the action-num `1` loop of pre_generation (lines 158-161):
fill the field from the existing file when it is absent or empty in the
incoming row. -/
def fillStep (line : Record) (kv : String × String) : Record :=
  if getVal line (lowerStr kv.1) = none ∨ getVal line (lowerStr kv.1) = some "" then
    setVal line (lowerStr kv.1) kv.2
  else line

/-- The action-num `1` merge of pre_generation (lines 156-161): iterate over the
parsed existing ABOUT file, filling fields absent or empty in the row. -/
def fillMissing (line parsed : Record) : Record := parsed.foldl fillStep line

/-- One iteration of the action-num `2` loop of pre_generation (lines 165-167):
the existing value overwrites the row value at the lower-cased name. -/
def preferStep (line : Record) (kv : String × String) : Record :=
  setVal line (lowerStr kv.1) kv.2

/-- The action-num `2` merge of pre_generation (lines 163-167). -/
def preferExisting (line parsed : Record) : Record := parsed.foldl preferStep line

/-- How one value of the existing file acts on the current value of a field
during the action-num `1` loop: it lands when the field is absent or empty. -/
def fillAcc (s : Option String) (v : String) : Option String :=
  match s with
  | none => some v
  | some t => if t = "" then some v else s

/-- `file_location.startswith('/')` (pre_generation line 141). -/
def startsSlash (s : String) : Bool :=
  match s.data with
  | [] => false
  | c :: _ => c = '/'

/-- The characters after the first occurrence of `c`, or nothing when `c` is
absent: `s.partition(c)[2]` (pre_generation line 142). -/
def partitionAfter (c : Char) : List Char → List Char
  | [] => []
  | x :: xs => if x = c then xs else partitionAfter c xs

/-- The characters after the last `/`, or the whole string when `/` is absent:
`s.rpartition('/')[2]` (pre_generation line 145). -/
def afterLastSlash (s : String) : String :=
  ⟨(s.data.reverse.takeWhile (fun c => c ≠ '/')).reverse⟩

/-- `os.path.join` for POSIX paths, two arguments (pre_generation line 146). -/
def joinPath (a b : String) : String :=
  if startsSlash b then b
  else if a = "" ∨ a.data.getLast? = some '/' then a ++ b
  else a ++ "/" ++ b

/-- Target-location resolution of pre_generation lines 140-146: strip one
leading separator, flatten to the file name in all-in-one mode, join under
the generation location. -/
def resolveTarget (gen_location : String) (line : Record) (all_in_one : Bool) : String :=
  let f0 := (getVal line "about_file").getD ""
  let f1 := if startsSlash f0 then (⟨partitionAfter '/' f0.data⟩ : String) else f0
  let f2 := if all_in_one then afterLastSlash f1 else f1
  joinPath gen_location f2

/-- The per-record body of GenAbout.pre_generation (lines 138-172). The
`existing` argument is `some parsed` exactly when a file already exists at the
target location, `parsed` being the mapping the Existing-File Reader recovers
from it; the result is the optional (location, final record) pair together
with the warnings appended for this record. -/
def pre_generation (gen_location : String) (line : Record) (action_num : String)
    (all_in_one : Bool) (existing : Option Record) :
    Option (String × Record) × List Warn :=
  let about_file_location := resolveTarget gen_location line all_in_one
  match existing with
  | some parsed =>
    if action_num = "0" then
      (none, [⟨"about_file", about_file_location,
        "ABOUT file already existed. Generation is skipped."⟩])
    else if action_num = "1" then
      (some (about_file_location, fillMissing line parsed), [])
    else if action_num = "2" then
      (some (about_file_location, preferExisting line parsed), [])
    else
      (some (about_file_location, line), [])
  | none => (some (about_file_location, line), [])

/-- `value.replace('\n', '\n ')` on the character list (format_output line 201). -/
def contChars : List Char → List Char
  | [] => []
  | c :: rest => if c = '\n' then '\n' :: ' ' :: contChars rest else c :: contChars rest

/-- `value.replace('\n', '\n ')` (format_output line 201). -/
def contLines (s : String) : String := ⟨contChars s.data⟩

/-- Lexicographic comparison of character lists by codepoint, as Python 2
compares byte strings. -/
def lexLe : List Char → List Char → Bool
  | [], _ => true
  | _ :: _, [] => false
  | x :: xs, y :: ys => if x.toNat = y.toNat then lexLe xs ys else decide (x.toNat < y.toNat)

/-- The string order used by `sorted` in format_output line 197. -/
def strLe (a b : String) : Bool := lexLe a.data b.data

/-- `sorted(about_dict_list.iterkeys())` (format_output line 197). -/
def sortedKeys (d : Record) : List String :=
  List.insertionSort (fun a b => strLe a b = true) (keysOf d)

/-- One iteration of the loop of format_output lines 197-203: append the
`item: value` line to `context` when the guards admit the field. -/
def bodyStep (d : Record) (context item : String) : String :=
  if item ∈ MANDATORY_FIELDS then context
  else
    let value := contLines ((getVal d item).getD "")
    if (value ≠ "" ∨ item ∈ MANDATORY_FIELDS) ∧ item ∉ SKIPPED_FIELDS then
      context ++ (item ++ ": " ++ value ++ "\n")
    else context

/-- The loop of format_output lines 197-203, building the non-header part of
the serialized text. -/
def format_body (d : Record) : String :=
  (sortedKeys d).foldl (bodyStep d) ""

/-- The guard of the loop of format_output lines 197-203: true exactly when
the field gets a line of its own in the serialized text. -/
def bodyPred (d : Record) (item : String) : Bool :=
  decide (item ∉ MANDATORY_FIELDS ∧
    (contLines ((getVal d item).getD "") ≠ "" ∨ item ∈ MANDATORY_FIELDS) ∧
    item ∉ SKIPPED_FIELDS)

/-- The keys the loop of format_output lines 197-203 actually renders, in
rendering order. -/
def bodyKeys (d : Record) : List String :=
  (sortedKeys d).filter (bodyPred d)

/-- The line rendered for a non-header field (format_output line 203). -/
def renderLine (d : Record) (item : String) : String :=
  item ++ ": " ++ contLines ((getVal d item).getD "") ++ "\n"

/-- GenAbout.format_output, per record (lines 181-206): `none` models the
KeyError raised when one of the three directly indexed fields is absent. -/
def format_output (d : Record) : Option String :=
  match getVal d "about_resource", getVal d "name", getVal d "version" with
  | some about_resource, some nm, some vr =>
    let name := if nm ≠ "" then nm else ""
    let version := if vr ≠ "" then vr else ""
    some ("about_resource: " ++ about_resource ++ "\n"
      ++ "name: " ++ name ++ "\n"
      ++ "version: " ++ version ++ "\n\n"
      ++ format_body d)
  | _, _, _ => none

/-- The row filter of GenAbout.read_input (lines 54-75): a row is kept exactly
when both `about_file` and `about_resource` are present and non-empty. -/
def read_input_keeps (line : Record) : Bool :=
  match getVal line "about_file", getVal line "about_resource" with
  | some v, some w => v ≠ "" && w ≠ ""
  | _, _ => false

/-- Modelled from the spec: `about.AboutFile(path).parsed` (module `about`,
which is not among this repository's sources) yields the Existing Record, "the
field mapping parsed from a file already present at a Target Location"; per the
spec's data model a field "name is case-insensitive and normalized to
lower-case", and as a mapping its names are distinct. -/
def wfParsed (parsed : Record) : Prop :=
  (keysOf parsed).Nodup ∧ ∀ kv ∈ parsed, lowerStr kv.1 = kv.1

instance (parsed : Record) : Decidable (wfParsed parsed) := by
  unfold wfParsed; infer_instance

/-! ### Order facts for the key sort -/

theorem lexLe_cons (x y : Char) (xs ys : List Char) :
    lexLe (x :: xs) (y :: ys) = true ↔
      (x.toNat = y.toNat ∧ lexLe xs ys = true) ∨ x.toNat < y.toNat := by
  by_cases h : x.toNat = y.toNat
  · simp [lexLe, h, Nat.lt_irrefl]
  · simp [lexLe, h]

theorem lexLe_total : ∀ a b : List Char, lexLe a b = true ∨ lexLe b a = true := by
  intro a
  induction a with
  | nil => intro b; left; rfl
  | cons x xs ih =>
    intro b
    cases b with
    | nil => right; rfl
    | cons y ys =>
      rw [lexLe_cons, lexLe_cons]
      by_cases hxy : x.toNat = y.toNat
      · rcases ih ys with h | h
        · exact Or.inl (Or.inl ⟨hxy, h⟩)
        · exact Or.inr (Or.inl ⟨hxy.symm, h⟩)
      · rcases Nat.lt_or_ge x.toNat y.toNat with h | h
        · exact Or.inl (Or.inr h)
        · exact Or.inr (Or.inr (Nat.lt_of_le_of_ne h (fun e => hxy e.symm)))

theorem lexLe_trans : ∀ a b c : List Char,
    lexLe a b = true → lexLe b c = true → lexLe a c = true := by
  intro a
  induction a with
  | nil => intro b c _ _; rfl
  | cons x xs ih =>
    intro b c hab hbc
    cases b with
    | nil => simp [lexLe] at hab
    | cons y ys =>
      cases c with
      | nil => simp [lexLe] at hbc
      | cons z zs =>
        rw [lexLe_cons] at hab hbc ⊢
        rcases hab with ⟨exy, rab⟩ | lxy
        · rcases hbc with ⟨eyz, rbc⟩ | lyz
          · exact Or.inl ⟨exy.trans eyz, ih ys zs rab rbc⟩
          · exact Or.inr (exy ▸ lyz)
        · rcases hbc with ⟨eyz, _⟩ | lyz
          · exact Or.inr (eyz ▸ lxy)
          · exact Or.inr (Nat.lt_trans lxy lyz)

instance : IsTotal String (fun a b => strLe a b = true) :=
  ⟨fun a b => lexLe_total a.data b.data⟩

instance : IsTrans String (fun a b => strLe a b = true) :=
  ⟨fun a b c => lexLe_trans a.data b.data c.data⟩

/-! ### Basic record lemmas -/

theorem getVal_setVal_self (r : Record) (k v : String) :
    getVal (setVal r k v) k = some v := by
  induction r with
  | nil => simp [setVal, getVal]
  | cons kv rest ih =>
    by_cases h : kv.1 = k
    · simp [setVal, h, getVal]
    · simp [setVal, h, getVal, ih]

theorem getVal_setVal_ne (r : Record) (k v q : String) (h : k ≠ q) :
    getVal (setVal r k v) q = getVal r q := by
  induction r with
  | nil => simp [setVal, getVal, h]
  | cons kv rest ih =>
    by_cases hk : kv.1 = k
    · simp [setVal, hk, getVal, h, hk ▸ h]
    · simp only [setVal, if_neg hk, getVal]
      by_cases hq : kv.1 = q
      · simp [hq]
      · simp [hq, ih]

theorem getVal_some_mem (r : Record) (k v : String) (h : getVal r k = some v) :
    k ∈ keysOf r := by
  induction r with
  | nil => simp [getVal] at h
  | cons kv rest ih =>
    by_cases hk : kv.1 = k
    · simp [keysOf, hk]
    · simp only [getVal, if_neg hk] at h
      simp [keysOf] at ih ⊢
      exact Or.inr (ih h)

theorem getVal_none_of_not_mem (r : Record) (k : String) (h : k ∉ keysOf r) :
    getVal r k = none := by
  induction r with
  | nil => rfl
  | cons kv rest ih =>
    simp only [keysOf, List.map_cons, List.mem_cons, not_or] at h
    simp only [getVal, if_neg (Ne.symm h.1)]
    exact ih h.2

/-! ### Characterizing the merges through lookups -/

theorem fillAcc_ne_none (s : Option String) (v : String) : fillAcc s v ≠ none := by
  cases s with
  | none => simp [fillAcc]
  | some t =>
    by_cases h : t = "" <;> simp [fillAcc, h]

theorem foldl_fillAcc_nonempty (l : List String) (v : String) (hv : v ≠ "") :
    l.foldl fillAcc (some v) = some v := by
  induction l with
  | nil => rfl
  | cons x xs ih => simpa [fillAcc, hv] using ih

theorem foldl_fillAcc_ne_none (l : List String) (s : Option String) (hs : s ≠ none) :
    l.foldl fillAcc s ≠ none := by
  induction l generalizing s with
  | nil => simpa using hs
  | cons x xs ih => exact ih (fillAcc s x) (fillAcc_ne_none s x)

theorem getVal_fillStep (line : Record) (kv : String × String) (q : String) :
    getVal (fillStep line kv) q =
      if lowerStr kv.1 = q then fillAcc (getVal line q) kv.2 else getVal line q := by
  by_cases h : lowerStr kv.1 = q
  · rw [if_pos h, ← h]
    unfold fillStep
    by_cases hc : getVal line (lowerStr kv.1) = none ∨ getVal line (lowerStr kv.1) = some ""
    · rw [if_pos hc, getVal_setVal_self]
      rcases hc with hc | hc <;> rw [hc] <;> simp [fillAcc]
    · rw [if_neg hc]
      push_neg at hc
      cases heq : getVal line (lowerStr kv.1) with
      | none => exact absurd heq hc.1
      | some v =>
        have hv : v ≠ "" := by
          intro e
          exact hc.2 (e ▸ heq)
        simp [fillAcc, hv]
  · rw [if_neg h]
    unfold fillStep
    by_cases hc : getVal line (lowerStr kv.1) = none ∨ getVal line (lowerStr kv.1) = some ""
    · rw [if_pos hc]
      exact getVal_setVal_ne line (lowerStr kv.1) kv.2 q h
    · rw [if_neg hc]

theorem getVal_fillMissing (parsed : Record) (line : Record) (q : String) :
    getVal (fillMissing line parsed) q =
      ((parsed.filter (fun kv => decide (lowerStr kv.1 = q))).map Prod.snd).foldl
        fillAcc (getVal line q) := by
  induction parsed generalizing line with
  | nil => rfl
  | cons kv rest ih =>
    have hstep : fillMissing line (kv :: rest) = fillMissing (fillStep line kv) rest := by
      simp [fillMissing]
    rw [hstep, ih (fillStep line kv), getVal_fillStep]
    by_cases h : lowerStr kv.1 = q
    · simp [List.filter_cons, h]
    · simp [List.filter_cons, h]

theorem getVal_preferStep (line : Record) (kv : String × String) (q : String) :
    getVal (preferStep line kv) q =
      if lowerStr kv.1 = q then some kv.2 else getVal line q := by
  by_cases h : lowerStr kv.1 = q
  · rw [if_pos h]
    exact h ▸ getVal_setVal_self line (lowerStr kv.1) kv.2
  · rw [if_neg h]
    exact getVal_setVal_ne line (lowerStr kv.1) kv.2 q h

theorem getVal_preferExisting (parsed : Record) (line : Record) (q : String) :
    getVal (preferExisting line parsed) q =
      ((parsed.filter (fun kv => decide (lowerStr kv.1 = q))).map Prod.snd).foldl
        (fun _ v => some v) (getVal line q) := by
  induction parsed generalizing line with
  | nil => rfl
  | cons kv rest ih =>
    have hstep : preferExisting line (kv :: rest) = preferExisting (preferStep line kv) rest := by
      simp [preferExisting]
    rw [hstep, ih (preferStep line kv), getVal_preferStep]
    by_cases h : lowerStr kv.1 = q
    · simp [List.filter_cons, h]
    · simp [List.filter_cons, h]

theorem filter_key_nodup (parsed : Record) (hn : (keysOf parsed).Nodup) (q : String) :
    (parsed.filter (fun kv => decide (kv.1 = q))).map Prod.snd = (getVal parsed q).toList := by
  induction parsed with
  | nil => rfl
  | cons kv rest ih =>
    have hn' : (keysOf rest).Nodup := (List.nodup_cons.mp hn).2
    have hhead : kv.1 ∉ keysOf rest := (List.nodup_cons.mp hn).1
    by_cases h : kv.1 = q
    · have hrest : rest.filter (fun kv => decide (kv.1 = q)) = [] := by
        rw [List.filter_eq_nil_iff]
        intro a ha
        simp only [decide_eq_true_eq]
        intro e
        exact hhead (h ▸ e ▸ List.mem_map_of_mem Prod.fst ha)
      simp [List.filter_cons, h, hrest, getVal]
    · simp only [List.filter_cons, decide_eq_true_eq, h, if_neg h, getVal, ite_false]
      exact ih hn'

theorem filter_lower_of_wf (parsed : Record) (hw : wfParsed parsed) (q : String) :
    parsed.filter (fun kv => decide (lowerStr kv.1 = q))
      = parsed.filter (fun kv => decide (kv.1 = q)) := by
  apply List.filter_congr
  intro kv hkv
  rw [hw.2 kv hkv]

theorem filter_lower_map_wf (parsed : Record) (hw : wfParsed parsed) (q : String) :
    (parsed.filter (fun kv => decide (lowerStr kv.1 = q))).map Prod.snd
      = (getVal parsed q).toList := by
  rw [filter_lower_of_wf parsed hw, filter_key_nodup parsed hw.1]

theorem fill_keeps_nonempty (line parsed : Record) (q v : String)
    (h : getVal line q = some v) (hv : v ≠ "") :
    getVal (fillMissing line parsed) q = some v := by
  rw [getVal_fillMissing, h]
  exact foldl_fillAcc_nonempty _ v hv

theorem fill_fills (line parsed : Record) (q v : String) (hw : wfParsed parsed)
    (hp : getVal parsed q = some v)
    (hl : getVal line q = none ∨ getVal line q = some "") :
    getVal (fillMissing line parsed) q = some v := by
  rw [getVal_fillMissing, filter_lower_map_wf parsed hw, hp]
  rcases hl with h | h <;> rw [h] <;> simp [fillAcc]

theorem fill_not_lowered (line parsed : Record) (q : String)
    (h : ∀ kv ∈ parsed, lowerStr kv.1 ≠ q) :
    getVal (fillMissing line parsed) q = getVal line q := by
  rw [getVal_fillMissing]
  have hf : parsed.filter (fun kv => decide (lowerStr kv.1 = q)) = [] := by
    rw [List.filter_eq_nil_iff]
    intro kv hkv
    simp [h kv hkv]
  rw [hf]
  rfl

theorem prefer_not_lowered (line parsed : Record) (q : String)
    (h : ∀ kv ∈ parsed, lowerStr kv.1 ≠ q) :
    getVal (preferExisting line parsed) q = getVal line q := by
  rw [getVal_preferExisting]
  have hf : parsed.filter (fun kv => decide (lowerStr kv.1 = q)) = [] := by
    rw [List.filter_eq_nil_iff]
    intro kv hkv
    simp [h kv hkv]
  rw [hf]
  rfl

theorem prefer_overrides (line parsed : Record) (q v : String) (hw : wfParsed parsed)
    (hp : getVal parsed q = some v) :
    getVal (preferExisting line parsed) q = some v := by
  rw [getVal_preferExisting, filter_lower_map_wf parsed hw, hp]
  rfl

theorem prefer_keeps (line parsed : Record) (q : String) (hw : wfParsed parsed)
    (hp : getVal parsed q = none) :
    getVal (preferExisting line parsed) q = getVal line q := by
  rw [getVal_preferExisting, filter_lower_map_wf parsed hw, hp]
  rfl

theorem fill_isSome (line parsed : Record) (q : String) (h : getVal line q ≠ none) :
    getVal (fillMissing line parsed) q ≠ none := by
  rw [getVal_fillMissing]
  exact foldl_fillAcc_ne_none _ _ h

/-! ### The merges preserve well-formedness of the key set -/

theorem keysOf_setVal (r : Record) (k v : String) :
    keysOf (setVal r k v) = if k ∈ keysOf r then keysOf r else keysOf r ++ [k] := by
  induction r with
  | nil => simp [setVal, keysOf]
  | cons kv rest ih =>
    by_cases h : kv.1 = k
    · simp only [setVal, if_pos h, keysOf, List.map_cons]
      rw [if_pos (by simp [h])]
      simp [h]
    · simp only [setVal, if_neg h, keysOf, List.map_cons] at ih ⊢
      rw [ih]
      by_cases hm : k ∈ List.map Prod.fst rest
      · rw [if_pos hm, if_pos (List.mem_cons_of_mem _ hm)]
      · have hm2 : k ∉ kv.1 :: List.map Prod.fst rest := by
          simp [hm, Ne.symm h]
        rw [if_neg hm, if_neg hm2]
        simp

theorem nodup_setVal (r : Record) (k v : String) (h : (keysOf r).Nodup) :
    (keysOf (setVal r k v)).Nodup := by
  rw [keysOf_setVal]
  by_cases hm : k ∈ keysOf r
  · rwa [if_pos hm]
  · rw [if_neg hm]
    simp [List.nodup_append, h, hm]

theorem lower_keys_setVal (r : Record) (k v : String)
    (hr : ∀ kv ∈ r, lowerStr kv.1 = kv.1) (hk : lowerStr k = k) :
    ∀ kv ∈ setVal r k v, lowerStr kv.1 = kv.1 := by
  induction r with
  | nil =>
    intro kv hkv
    simp only [setVal, List.mem_singleton] at hkv
    rw [hkv]
    exact hk
  | cons kv0 rest ih =>
    intro kv hkv
    by_cases h : kv0.1 = k
    · rw [setVal, if_pos h] at hkv
      rcases List.mem_cons.mp hkv with he | ht
      · rw [he]; exact hk
      · exact hr kv (List.mem_cons_of_mem _ ht)
    · rw [setVal, if_neg h] at hkv
      rcases List.mem_cons.mp hkv with he | ht
      · rw [he]; exact hr kv0 (List.mem_cons_self _ _)
      · exact ih (fun x hx => hr x (List.mem_cons_of_mem _ hx)) kv ht

theorem fillStep_wf (line : Record) (kv : String × String)
    (hl : ∀ x ∈ line, lowerStr x.1 = x.1) (hn : (keysOf line).Nodup)
    (hkv : lowerStr kv.1 = kv.1) :
    (∀ x ∈ fillStep line kv, lowerStr x.1 = x.1) ∧ (keysOf (fillStep line kv)).Nodup := by
  unfold fillStep
  split
  · refine ⟨lower_keys_setVal line (lowerStr kv.1) kv.2 hl ?_, nodup_setVal _ _ _ hn⟩
    rw [hkv, hkv]
  · exact ⟨hl, hn⟩

theorem fillMissing_wf (parsed : Record) (line : Record)
    (hl : ∀ x ∈ line, lowerStr x.1 = x.1) (hn : (keysOf line).Nodup) (hw : wfParsed parsed) :
    (∀ x ∈ fillMissing line parsed, lowerStr x.1 = x.1)
      ∧ (keysOf (fillMissing line parsed)).Nodup := by
  induction parsed generalizing line with
  | nil => exact ⟨hl, hn⟩
  | cons kv rest ih =>
    have hw' : wfParsed rest := by
      refine ⟨?_, fun x hx => hw.2 x (List.mem_cons_of_mem _ hx)⟩
      have := hw.1
      simp only [keysOf, List.map_cons, List.nodup_cons] at this
      exact this.2
    have hkv := hw.2 kv (List.mem_cons_self _ _)
    have hstep := fillStep_wf line kv hl hn hkv
    have he : fillMissing line (kv :: rest) = fillMissing (fillStep line kv) rest := by
      simp [fillMissing]
    rw [he]
    exact ih (fillStep line kv) hstep.1 hstep.2 hw'

/-! ### Serializer lemmas -/

theorem join_cons (a : String) (l : List String) :
    String.join (a :: l) = a ++ String.join l := by
  ext1
  simp [String.join_eq, String.data_append]

theorem append_empty_str (a : String) : a ++ "" = a := by
  ext1
  simp [String.data_append]

theorem empty_append_str (a : String) : "" ++ a = a := by
  ext1
  simp [String.data_append]

theorem contChars_eq_nil (l : List Char) : contChars l = [] ↔ l = [] := by
  cases l with
  | nil => simp [contChars]
  | cons c rest => by_cases h : c = '\n' <;> simp [contChars, h]

theorem contLines_eq_empty (s : String) : contLines s = "" ↔ s = "" := by
  constructor
  · intro h
    have hd : contChars s.data = [] := congrArg String.data h
    ext1
    simpa using (contChars_eq_nil s.data).mp hd
  · intro h
    rw [h]
    rfl

theorem bodyStep_eq (d : Record) (context item : String) :
    bodyStep d context item =
      if bodyPred d item = true then context ++ renderLine d item else context := by
  unfold bodyStep bodyPred renderLine
  by_cases h1 : item ∈ MANDATORY_FIELDS
  · simp [h1]
  · by_cases h2 : (contLines ((getVal d item).getD "") ≠ "" ∨ item ∈ MANDATORY_FIELDS) ∧
        item ∉ SKIPPED_FIELDS
    · simp [h1, h2]
    · simp [h1, h2]

theorem foldl_bodyStep (d : Record) (keys : List String) (acc : String) :
    keys.foldl (bodyStep d) acc
      = acc ++ String.join ((keys.filter (bodyPred d)).map (renderLine d)) := by
  induction keys generalizing acc with
  | nil => exact (append_empty_str acc).symm
  | cons k ks ih =>
    rw [List.foldl_cons, bodyStep_eq, List.filter_cons]
    by_cases h : bodyPred d k = true
    · rw [if_pos h, if_pos h, List.map_cons, join_cons, ih, String.append_assoc]
    · rw [if_neg h, if_neg h, ih]

theorem format_body_eq (d : Record) :
    format_body d = String.join ((bodyKeys d).map (renderLine d)) := by
  rw [format_body, foldl_bodyStep, bodyKeys, empty_append_str]

theorem format_output_repr (d : Record) (ar nm vr : String)
    (h1 : getVal d "about_resource" = some ar) (h2 : getVal d "name" = some nm)
    (h3 : getVal d "version" = some vr) :
    format_output d = some ("about_resource: " ++ ar ++ "\n"
      ++ "name: " ++ nm ++ "\n" ++ "version: " ++ vr ++ "\n\n"
      ++ String.join ((bodyKeys d).map (renderLine d))) := by
  unfold format_output
  rw [h1, h2, h3]
  have en : (if nm ≠ "" then nm else "") = nm := by
    by_cases h : nm = "" <;> simp [h]
  have ev : (if vr ≠ "" then vr else "") = vr := by
    by_cases h : vr = "" <;> simp [h]
  simp only [en, ev, format_body_eq]

theorem format_output_some_iff (d : Record) :
    (format_output d).isSome = true ↔
      ((getVal d "about_resource").isSome = true ∧ (getVal d "name").isSome = true ∧
        (getVal d "version").isSome = true) := by
  unfold format_output
  cases getVal d "about_resource" <;> cases getVal d "name" <;> cases getVal d "version" <;> simp

theorem mem_sortedKeys (d : Record) (k : String) :
    k ∈ sortedKeys d ↔ k ∈ keysOf d := by
  unfold sortedKeys
  exact (List.perm_insertionSort (fun a b => strLe a b = true) (keysOf d)).mem_iff

theorem sorted_sortedKeys (d : Record) :
    List.Sorted (fun a b => strLe a b = true) (sortedKeys d) :=
  List.sorted_insertionSort (fun a b => strLe a b = true) (keysOf d)

theorem sorted_bodyKeys (d : Record) :
    List.Sorted (fun a b => strLe a b = true) (bodyKeys d) :=
  List.Pairwise.filter (bodyPred d) (sorted_sortedKeys d)

theorem mem_bodyKeys (d : Record) (k : String) :
    k ∈ bodyKeys d ↔ k ∈ keysOf d ∧ (k ∉ MANDATORY_FIELDS ∧
      (contLines ((getVal d k).getD "") ≠ "" ∨ k ∈ MANDATORY_FIELDS) ∧
      k ∉ SKIPPED_FIELDS) := by
  unfold bodyKeys
  rw [List.mem_filter, mem_sortedKeys]
  unfold bodyPred
  simp

/-! ### Path resolution lemmas -/

theorem partitionAfter_cons_self (rest : List Char) :
    partitionAfter '/' ('/' :: rest) = rest := by
  simp [partitionAfter]

theorem partitionAfter_suffix (c : Char) (l : List Char) :
    ∃ t, t ++ partitionAfter c l = l := by
  induction l with
  | nil => exact ⟨[], rfl⟩
  | cons x xs ih =>
    by_cases h : x = c
    · exact ⟨[x], by simp [partitionAfter, h]⟩
    · obtain ⟨t, ht⟩ := ih
      exact ⟨x :: t, by simp [partitionAfter, h, ht]⟩

theorem takeWhile_append_last (p : Char → Bool) (xs : List Char) (c : Char)
    (hc : p c = false) :
    (xs ++ [c]).takeWhile p = xs.takeWhile p := by
  induction xs with
  | nil => simp [List.takeWhile_cons, hc]
  | cons x l ih =>
    by_cases h : p x
    · simp [List.takeWhile_cons, h, ih]
    · simp [List.takeWhile_cons, h]

theorem afterLastSlash_strip (rest : String) :
    afterLastSlash ⟨'/' :: rest.data⟩ = afterLastSlash rest := by
  unfold afterLastSlash
  have : ('/' :: rest.data).reverse = rest.data.reverse ++ ['/'] := by
    simp
  rw [this, takeWhile_append_last _ _ '/' (by simp)]

theorem afterLastSlash_no_slash (s : String) : '/' ∉ (afterLastSlash s).data := by
  unfold afterLastSlash
  intro h
  have h2 : '/' ∈ (s.data.reverse.takeWhile (fun c => c ≠ '/')) := by
    simpa using h
  have := List.mem_takeWhile_imp h2
  simp at this

theorem afterLastSlash_suffix (s : String) :
    ∃ t, t ++ (afterLastSlash s).data = s.data := by
  unfold afterLastSlash
  refine ⟨(s.data.reverse.dropWhile (fun c => c ≠ '/')).reverse, ?_⟩
  have hsplit : s.data.reverse.takeWhile (fun c => c ≠ '/')
      ++ s.data.reverse.dropWhile (fun c => c ≠ '/') = s.data.reverse :=
    List.takeWhile_append_dropWhile _ _
  calc (s.data.reverse.dropWhile (fun c => c ≠ '/')).reverse
      ++ (s.data.reverse.takeWhile (fun c => c ≠ '/')).reverse
      = (s.data.reverse.takeWhile (fun c => c ≠ '/')
          ++ s.data.reverse.dropWhile (fun c => c ≠ '/')).reverse := by
        rw [List.reverse_append]
    _ = s.data.reverse.reverse := by rw [hsplit]
    _ = s.data := by simp

theorem data_slash_append (rest : String) : ("/" ++ rest).data = '/' :: rest.data := by
  rw [String.data_append]
  rfl

theorem startsSlash_slash_append (rest : String) : startsSlash ("/" ++ rest) = true := by
  unfold startsSlash
  rw [data_slash_append]
  simp

theorem joinPath_data (a b : String) : ∃ t, (joinPath a b).data = t ++ b.data := by
  unfold joinPath
  by_cases h1 : startsSlash b = true
  · rw [if_pos h1]
    exact ⟨[], rfl⟩
  · rw [if_neg h1]
    by_cases h2 : a = "" ∨ a.data.getLast? = some '/'
    · rw [if_pos h2]
      exact ⟨a.data, String.data_append a b⟩
    · rw [if_neg h2]
      refine ⟨a.data ++ ['/'], ?_⟩
      rw [String.data_append, String.data_append]

/-! ### Case analysis of pre_generation -/

theorem pre_generation_no_existing (gen_location : String) (line : Record)
    (action_num : String) (all_in_one : Bool) :
    pre_generation gen_location line action_num all_in_one none
      = (some (resolveTarget gen_location line all_in_one, line), []) := rfl

theorem pre_generation_cases (gen_location : String) (line : Record) (action_num : String)
    (all_in_one : Bool) (existing : Option Record) (loc : String) (rec : Record)
    (ws : List Warn)
    (h : pre_generation gen_location line action_num all_in_one existing
      = (some (loc, rec), ws)) :
    loc = resolveTarget gen_location line all_in_one ∧ ws = [] ∧
      ((existing = none ∧ rec = line) ∨
       (∃ parsed, existing = some parsed ∧ action_num ≠ "0" ∧
         ((action_num = "1" ∧ rec = fillMissing line parsed) ∨
          (action_num = "2" ∧ rec = preferExisting line parsed) ∨
          (action_num ≠ "1" ∧ action_num ≠ "2" ∧ rec = line)))) := by
  cases existing with
  | none =>
    rw [pre_generation_no_existing] at h
    simp only [Prod.mk.injEq, Option.some.injEq] at h
    exact ⟨h.1.1.symm, h.2.symm, Or.inl ⟨rfl, h.1.2.symm⟩⟩
  | some parsed =>
    by_cases h0 : action_num = "0"
    · rw [h0] at h
      simp [pre_generation] at h
    · by_cases ha1 : action_num = "1"
      · subst ha1
        have e : pre_generation gen_location line "1" all_in_one (some parsed)
            = (some (resolveTarget gen_location line all_in_one, fillMissing line parsed),
               []) := rfl
        rw [e] at h
        simp only [Prod.mk.injEq, Option.some.injEq] at h
        exact ⟨h.1.1.symm, h.2.symm, Or.inr ⟨parsed, rfl, h0, Or.inl ⟨rfl, h.1.2.symm⟩⟩⟩
      · by_cases ha2 : action_num = "2"
        · subst ha2
          have e : pre_generation gen_location line "2" all_in_one (some parsed)
              = (some (resolveTarget gen_location line all_in_one,
                  preferExisting line parsed), []) := rfl
          rw [e] at h
          simp only [Prod.mk.injEq, Option.some.injEq] at h
          exact ⟨h.1.1.symm, h.2.symm,
            Or.inr ⟨parsed, rfl, h0, Or.inr (Or.inl ⟨rfl, h.1.2.symm⟩)⟩⟩
        · have e : pre_generation gen_location line action_num all_in_one (some parsed)
              = (some (resolveTarget gen_location line all_in_one, line), []) := by
            simp only [pre_generation, if_neg h0, if_neg ha1, if_neg ha2]
          rw [e] at h
          simp only [Prod.mk.injEq, Option.some.injEq] at h
          exact ⟨h.1.1.symm, h.2.symm,
            Or.inr ⟨parsed, rfl, h0, Or.inr (Or.inr ⟨ha1, ha2, h.1.2.symm⟩)⟩⟩

/-! ### The claims -/

/-- C1: under merge policy FillMissing (action `1`), the final record keeps the
incoming value of every field present non-empty in the incoming record, takes
the existing record's value for every existing field whose (lower-cased) name
is absent or empty in the incoming record, and leaves every field whose name
is not an existing field's name unchanged. -/
theorem claim_fillMissing_semantics (line parsed : Record) (hw : wfParsed parsed) :
    (∀ k v, getVal line k = some v → v ≠ "" →
      getVal (fillMissing line parsed) k = some v)
  ∧ (∀ k v, getVal parsed k = some v →
      (getVal line k = none ∨ getVal line k = some "") →
      getVal (fillMissing line parsed) k = some v)
  ∧ (∀ q, q ∉ keysOf parsed → getVal (fillMissing line parsed) q = getVal line q) := by
  refine ⟨fun k v h hv => fill_keeps_nonempty line parsed k v h hv,
          fun k v hp hl => fill_fills line parsed k v hw hp hl,
          fun q hq => fill_not_lowered line parsed q ?_⟩
  intro kv hkv e
  apply hq
  have hk : kv.1 = q := by rw [← hw.2 kv hkv, e]
  exact hk ▸ List.mem_map_of_mem Prod.fst hkv

/-- C1 witness: a concrete FillMissing merge in which a non-empty incoming
field survives and an empty incoming field is filled from the existing file. -/
theorem claim_fillMissing_semantics_witness :
    getVal (fillMissing [("name", "n"), ("notes", "")]
      [("notes", "z"), ("extra", "e")]) "name" = some "n"
  ∧ getVal (fillMissing [("name", "n"), ("notes", "")]
      [("notes", "z"), ("extra", "e")]) "notes" = some "z" := by
  have h := claim_fillMissing_semantics [("name", "n"), ("notes", "")]
    [("notes", "z"), ("extra", "e")] (by decide)
  exact ⟨h.1 "name" "n" (by decide) (by decide),
         h.2.1 "notes" "z" (by decide) (Or.inr (by decide))⟩

/-- C2: under merge policy PreferExisting (action `2`), every field of the
existing record overwrites the incoming value unconditionally, and fields
present only in the incoming record are retained unchanged. -/
theorem claim_preferExisting_semantics (line parsed : Record) (hw : wfParsed parsed) :
    (∀ k v, getVal parsed k = some v → getVal (preferExisting line parsed) k = some v)
  ∧ (∀ q, q ∉ keysOf parsed →
      getVal (preferExisting line parsed) q = getVal line q) := by
  refine ⟨fun k v hp => prefer_overrides line parsed k v hw hp,
          fun q hq => prefer_not_lowered line parsed q ?_⟩
  intro kv hkv e
  apply hq
  have hk : kv.1 = q := by rw [← hw.2 kv hkv, e]
  exact hk ▸ List.mem_map_of_mem Prod.fst hkv

/-- C2 witness: incoming `x=a` with existing `x=b` yields `x=b`, and the field
`only` present only in the incoming record is retained. -/
theorem claim_preferExisting_semantics_witness :
    getVal (preferExisting [("x", "a"), ("only", "i")] [("x", "b")]) "x" = some "b"
  ∧ getVal (preferExisting [("x", "a"), ("only", "i")] [("x", "b")]) "only" = some "i" := by
  have h := claim_preferExisting_semantics [("x", "a"), ("only", "i")] [("x", "b")]
    (by decide)
  exact ⟨h.1 "x" "b" (by decide), (h.2 "only" (by decide)).trans (by decide)⟩

/-- C3: under merge policy Skip (action `0`), a record whose target file
already exists produces no final record and appends exactly one Warning, while
a record whose target file does not exist produces the incoming record
unchanged with no warning. -/
theorem claim_skip_policy (gen_location : String) (line : Record) (all_in_one : Bool) :
    (∀ parsed, pre_generation gen_location line "0" all_in_one (some parsed)
        = (none, [⟨"about_file", resolveTarget gen_location line all_in_one,
            "ABOUT file already existed. Generation is skipped."⟩]))
  ∧ pre_generation gen_location line "0" all_in_one none
      = (some (resolveTarget gen_location line all_in_one, line), []) :=
  ⟨fun _ => rfl, rfl⟩

/-- C4: the serialized text is the fixed three-line header (about_resource,
name, version) followed by a blank line, followed by the remaining rendered
fields in lexicographic key order, none of them a header field. -/
theorem claim_serializer_format (d : Record) (ar nm vr : String)
    (h1 : getVal d "about_resource" = some ar) (h2 : getVal d "name" = some nm)
    (h3 : getVal d "version" = some vr) :
    format_output d = some ("about_resource: " ++ ar ++ "\n"
        ++ "name: " ++ nm ++ "\n" ++ "version: " ++ vr ++ "\n\n"
        ++ String.join ((bodyKeys d).map (renderLine d)))
  ∧ List.Sorted (fun a b => strLe a b = true) (bodyKeys d)
  ∧ (∀ item ∈ bodyKeys d, item ∉ MANDATORY_FIELDS) := by
  refine ⟨format_output_repr d ar nm vr h1 h2 h3, sorted_bodyKeys d, ?_⟩
  intro item hitem
  exact ((mem_bodyKeys d item).mp hitem).2.1

/-- C4 witness: the record with fields zeta, alpha, about_resource, name,
version serializes exactly to the expected text. -/
theorem claim_serializer_format_witness :
    format_output [("zeta", "1"), ("alpha", "2"), ("about_resource", "r"),
      ("name", "n"), ("version", "v")]
      = some "about_resource: r\nname: n\nversion: v\n\nalpha: 2\nzeta: 1\n" := by
  have h := claim_serializer_format
    [("zeta", "1"), ("alpha", "2"), ("about_resource", "r"), ("name", "n"), ("version", "v")]
    "r" "n" "v" (by decide) (by decide) (by decide)
  exact h.1.trans (by decide)

/-- C5: the serializer drops every non-header field whose value is empty,
renders the three header fields even when empty, and never renders the
reserved fields warnings and errors. -/
theorem claim_serializer_omissions (d : Record) (ar nm vr : String)
    (h1 : getVal d "about_resource" = some ar) (h2 : getVal d "name" = some nm)
    (h3 : getVal d "version" = some vr) :
    format_output d = some ("about_resource: " ++ ar ++ "\n"
        ++ "name: " ++ nm ++ "\n" ++ "version: " ++ vr ++ "\n\n"
        ++ String.join ((bodyKeys d).map (renderLine d)))
  ∧ (∀ k, k ∉ MANDATORY_FIELDS → getVal d k = some "" → k ∉ bodyKeys d)
  ∧ "warnings" ∉ bodyKeys d
  ∧ "errors" ∉ bodyKeys d := by
  refine ⟨format_output_repr d ar nm vr h1 h2 h3, ?_, ?_, ?_⟩
  · intro k hk hempty hmem
    rcases ((mem_bodyKeys d k).mp hmem).2.2.1 with h | h
    · apply h
      rw [hempty]
      rfl
    · exact hk h
  · intro hmem
    exact ((mem_bodyKeys d "warnings").mp hmem).2.2.2 (by decide)
  · intro hmem
    exact ((mem_bodyKeys d "errors").mp hmem).2.2.2 (by decide)

/-- C5 witness: with all header values empty, an empty ordinary field, and the
reserved fields present, only the non-empty ordinary field is rendered after
the always-present header. -/
theorem claim_serializer_omissions_witness :
    format_output [("about_resource", ""), ("name", ""), ("version", ""),
      ("note", ""), ("warnings", "w"), ("errors", "x"), ("zeta", "z")]
      = some "about_resource: \nname: \nversion: \n\nzeta: z\n"
  ∧ "note" ∉ bodyKeys [("about_resource", ""), ("name", ""), ("version", ""),
      ("note", ""), ("warnings", "w"), ("errors", "x"), ("zeta", "z")] := by
  have h := claim_serializer_omissions [("about_resource", ""), ("name", ""),
    ("version", ""), ("note", ""), ("warnings", "w"), ("errors", "x"), ("zeta", "z")]
    "" "" "" (by decide) (by decide) (by decide)
  exact ⟨h.1.trans (by decide), h.2.1 "note" (by decide) (by decide)⟩

/-- C8 counterexample: a record containing about_resource but lacking the name
and version keys makes the serializer fail (the direct indexing raises), so
the serializer is not defined on every record containing about_resource. -/
theorem claim_serializer_defined_counterexample :
    getVal [("about_resource", "r")] "about_resource" = some "r"
  ∧ format_output [("about_resource", "r")] = none := by decide

/-- C8 amended: the serializer is defined exactly on the records containing
all three keys about_resource, name and version; name and version present with
empty values are rendered as empty header lines rather than failing. -/
theorem claim_serializer_defined_amended (d : Record) :
    ((format_output d).isSome = true ↔
      ((getVal d "about_resource").isSome = true ∧ (getVal d "name").isSome = true ∧
        (getVal d "version").isSome = true))
  ∧ (∀ ar, getVal d "about_resource" = some ar → getVal d "name" = some "" →
      getVal d "version" = some "" →
      format_output d = some ("about_resource: " ++ ar ++ "\n"
        ++ "name: " ++ "" ++ "\n" ++ "version: " ++ "" ++ "\n\n"
        ++ String.join ((bodyKeys d).map (renderLine d)))) := by
  refine ⟨format_output_some_iff d, ?_⟩
  intro ar h1 h2 h3
  exact format_output_repr d ar "" "" h1 h2 h3

/-- C8 amended witness: empty name and version values are rendered, not
rejected. -/
theorem claim_serializer_defined_amended_witness :
    format_output [("about_resource", "r"), ("name", ""), ("version", "")]
      = some "about_resource: r\nname: \nversion: \n\n" := by
  have h := claim_serializer_defined_amended
    [("about_resource", "r"), ("name", ""), ("version", "")]
  exact (h.2 "r" (by decide) (by decide) (by decide)).trans (by decide)

/-- C6 counterexample: an incoming field whose name differs from an existing
field's name only in case is kept as a distinct field, and the final record
keeps the non-lower-case incoming key, refuting both the case-insensitive
comparison and the all-keys-lower-case normalization. -/
theorem claim_case_normalization_counterexample :
    fillMissing [("Name", "x")] [("name", "y")] = [("Name", "x"), ("name", "y")]
  ∧ "Name" ∈ keysOf (fillMissing [("Name", "x")] [("name", "y")])
  ∧ lowerStr "Name" ≠ "Name"
  ∧ getVal (fillMissing [("Name", "x")] [("name", "y")]) "Name" = some "x"
  ∧ getVal (fillMissing [("Name", "x")] [("name", "y")]) "name" = some "y" := by decide

/-- C6 amended: at merge time only the existing record's field names are
lower-cased; every field the merge changes sits at a lower-cased existing
name, and incoming keys are never renamed — a non-empty incoming field is
untouched even when an existing name differs from it only in case. -/
theorem claim_case_normalization_amended (line parsed : Record) :
    (∀ q, getVal (fillMissing line parsed) q ≠ getVal line q →
      ∃ kv ∈ parsed, q = lowerStr kv.1)
  ∧ (∀ q, getVal (preferExisting line parsed) q ≠ getVal line q →
      ∃ kv ∈ parsed, q = lowerStr kv.1)
  ∧ (∀ k v, getVal line k = some v → v ≠ "" →
      getVal (fillMissing line parsed) k = some v) := by
  refine ⟨?_, ?_, fun k v h hv => fill_keeps_nonempty line parsed k v h hv⟩
  · intro q hq
    by_contra hc
    push_neg at hc
    exact hq (fill_not_lowered line parsed q (fun kv hkv e => hc kv hkv e.symm))
  · intro q hq
    by_contra hc
    push_neg at hc
    exact hq (prefer_not_lowered line parsed q (fun kv hkv e => hc kv hkv e.symm))

/-- C6 amended witness: a changed field name is the lower-casing of an
existing field's name. -/
theorem claim_case_normalization_amended_witness :
    ∃ kv ∈ [(("Extra" : String), ("y" : String))], ("extra" : String) = lowerStr kv.1 := by
  have h := claim_case_normalization_amended [("a", "b")] [("Extra", "y")]
  exact h.1 "extra" (by decide)

/-- C7 counterexample: the resolved target for resource path `x` under root
`out` is exactly `out/x`; no `.ABOUT` suffix is appended even though the path
does not end in that suffix under any letter case. -/
theorem claim_target_resolution_counterexample :
    resolveTarget "out" [("about_file", "x")] false = "out/x"
  ∧ (lowerStr ".ABOUT").data.isSuffixOf
      (lowerStr (resolveTarget "out" [("about_file", "x")] false)).data = false := by decide

/-- C7 amended: resolution strips exactly one leading slash from the declared
resource path, keeps only its final (slash-free) component in all-in-one mode,
and joins the kept part — always a literal suffix of the declared path, never
extended by any `.ABOUT` suffix — under the output root. -/
theorem claim_target_resolution_amended (gen_location : String) (line : Record)
    (f : String) (all_in_one : Bool) (hf : getVal line "about_file" = some f) :
    (∀ rest : String, f = "/" ++ rest →
      resolveTarget gen_location line all_in_one
        = joinPath gen_location (if all_in_one then afterLastSlash rest else rest))
  ∧ (startsSlash f = false →
      resolveTarget gen_location line all_in_one
        = joinPath gen_location (if all_in_one then afterLastSlash f else f))
  ∧ (∃ s : String, resolveTarget gen_location line all_in_one = joinPath gen_location s
      ∧ (∃ t, t ++ s.data = f.data)
      ∧ (all_in_one = true → '/' ∉ s.data)
      ∧ (∃ u, (resolveTarget gen_location line all_in_one).data = u ++ s.data)) := by
  have hres : resolveTarget gen_location line all_in_one
      = joinPath gen_location (if all_in_one
          then afterLastSlash
            (if startsSlash f then (⟨partitionAfter '/' f.data⟩ : String) else f)
          else (if startsSlash f then (⟨partitionAfter '/' f.data⟩ : String) else f)) := by
    unfold resolveTarget
    rw [hf]
    rfl
  have hsub1 : ∃ t, t ++ (if startsSlash f then (⟨partitionAfter '/' f.data⟩ : String)
      else f).data = f.data := by
    by_cases hs : startsSlash f = true
    · rw [if_pos hs]
      exact partitionAfter_suffix '/' f.data
    · rw [if_neg hs]
      exact ⟨[], by simp⟩
  refine ⟨?_, ?_, ?_⟩
  · intro rest hrest
    subst hrest
    rw [hres]
    have hss : startsSlash ("/" ++ rest) = true := startsSlash_slash_append rest
    have hone : (if startsSlash ("/" ++ rest)
        then (⟨partitionAfter '/' ("/" ++ rest).data⟩ : String) else ("/" ++ rest)) = rest := by
      rw [if_pos hss, data_slash_append, partitionAfter_cons_self]
    rw [hone]
  · intro hns
    have hone : (if startsSlash f
        then (⟨partitionAfter '/' f.data⟩ : String) else f) = f := by
      rw [if_neg (by rw [hns]; exact Bool.false_ne_true)]
    rw [hres, hone]
  · refine ⟨if all_in_one
        then afterLastSlash (if startsSlash f then (⟨partitionAfter '/' f.data⟩ : String) else f)
        else (if startsSlash f then (⟨partitionAfter '/' f.data⟩ : String) else f),
      hres, ?_, ?_, ?_⟩
    · by_cases ha : all_in_one = true
      · rw [if_pos ha]
        obtain ⟨t2, ht2⟩ := afterLastSlash_suffix
          (if startsSlash f then (⟨partitionAfter '/' f.data⟩ : String) else f)
        obtain ⟨t1, ht1⟩ := hsub1
        exact ⟨t1 ++ t2, by rw [List.append_assoc, ht2, ht1]⟩
      · rw [if_neg ha]
        exact hsub1
    · intro ha
      rw [if_pos ha]
      exact afterLastSlash_no_slash _
    · rw [hres]
      exact joinPath_data gen_location _

/-- C7 amended witness: an absolute path is stripped of its leading slash and
flattened to its file name in all-in-one mode, with nothing appended. -/
theorem claim_target_resolution_amended_witness :
    resolveTarget "out" [("about_file", "/a/b/x")] true = "out/x" := by
  have h := claim_target_resolution_amended "out" [("about_file", "/a/b/x")] "/a/b/x" true
    (by decide)
  exact (h.1 "a/b/x" (by decide)).trans (by decide)

/-- C9 counterexample: with an incoming field name that is not lower-case, the
second FillMissing merge against the first merge's own output adds a new
lower-cased field, so the two-step result differs from the one-step result. -/
theorem claim_fillMissing_idempotent_counterexample :
    fillMissing [("Name", "x")] (fillMissing [("Name", "x")] ([] : Record))
      ≠ fillMissing [("Name", "x")] ([] : Record)
  ∧ getVal (fillMissing [("Name", "x")] (fillMissing [("Name", "x")] ([] : Record))) "name"
      ≠ getVal (fillMissing [("Name", "x")] ([] : Record)) "name" := by decide

/-- C9 amended: FillMissing is idempotent on incoming records whose field
names are lower-case and duplicate-free: re-merging the same incoming record
against the first merge's output leaves every field lookup unchanged. -/
theorem claim_fillMissing_idempotent_amended (line parsed : Record)
    (hl : ∀ kv ∈ line, lowerStr kv.1 = kv.1) (hn : (keysOf line).Nodup)
    (hw : wfParsed parsed) :
    ∀ q, getVal (fillMissing line (fillMissing line parsed)) q
        = getVal (fillMissing line parsed) q := by
  intro q
  have hwf1 : wfParsed (fillMissing line parsed) := by
    have h := fillMissing_wf parsed line hl hn hw
    exact ⟨h.2, h.1⟩
  rw [getVal_fillMissing (fillMissing line parsed) line q,
    filter_lower_map_wf (fillMissing line parsed) hwf1 q]
  cases hq : getVal (fillMissing line parsed) q with
  | none =>
    have hline : getVal line q = none := by
      by_contra hc
      exact (fill_isSome line parsed q hc) hq
    rw [hline]
    rfl
  | some w =>
    cases hlq : getVal line q with
    | none => rfl
    | some v =>
      by_cases hv : v = ""
      · rw [hv]
        rfl
      · have hkeep := fill_keeps_nonempty line parsed q v hlq hv
        rw [hq] at hkeep
        have hvw : w = v := Option.some.inj hkeep
        rw [hvw]
        simp [fillAcc, hv]

/-- C9 amended witness: a concrete idempotent FillMissing merge. -/
theorem claim_fillMissing_idempotent_amended_witness :
    getVal (fillMissing [("name", "n")] (fillMissing [("name", "n")] [("notes", "z")]))
      "notes" = getVal (fillMissing [("name", "n")] [("notes", "z")]) "notes" :=
  claim_fillMissing_idempotent_amended [("name", "n")] [("notes", "z")]
    (by decide) (by decide) (by decide) "notes"

theorem read_input_keeps_iff (line : Record) :
    read_input_keeps line = true ↔
      (∃ v, getVal line "about_file" = some v ∧ v ≠ "") ∧
      (∃ w, getVal line "about_resource" = some w ∧ w ≠ "") := by
  unfold read_input_keeps
  cases h1 : getVal line "about_file" <;> cases h2 : getVal line "about_resource" <;> simp

theorem join_split (l1 l2 : List String) (a : String) :
    String.join (l1 ++ a :: l2) = String.join l1 ++ (a ++ String.join l2) := by
  ext1
  simp [String.join_eq, String.data_append]

/-- C10 counterexample: under action `2`, an existing file that maps
about_file to the empty string empties the final record's about_file, and the
serialized output contains no about_file text at all, although the row
survived input reading and about_file is neither mandatory nor skipped. -/
theorem claim_about_file_line_counterexample :
    read_input_keeps [("about_file", "f"), ("about_resource", "r"), ("name", "n"),
      ("version", "v")] = true
  ∧ wfParsed [("about_file", "")]
  ∧ pre_generation "out" [("about_file", "f"), ("about_resource", "r"), ("name", "n"),
      ("version", "v")] "2" false (some [("about_file", "")])
      = (some ("out/f", [("about_file", ""), ("about_resource", "r"), ("name", "n"),
          ("version", "v")]), [])
  ∧ format_output [("about_file", ""), ("about_resource", "r"), ("name", "n"),
      ("version", "v")]
      = some "about_resource: r\nname: n\nversion: v\n\n"
  ∧ 'f' ∈ "about_file".data
  ∧ 'f' ∉ "about_resource: r\nname: n\nversion: v\n\n".data := by decide

/-- C10 amended: for every surviving row for which pre_generation emits a
final record, as long as the merge did not overwrite about_file with an empty
existing value — automatic for every action other than `2`, and true under
`2` whenever the existing record does not map about_file to the empty
string — the final record maps about_file to a non-empty value, the key is
rendered in the sorted body, and the serialized text contains the about_file
line. -/
theorem claim_about_file_line_amended (gen_location : String) (line : Record)
    (action_num : String) (all_in_one : Bool) (existing : Option Record)
    (loc : String) (rec : Record) (ws : List Warn)
    (hkeep : read_input_keeps line = true)
    (hw : ∀ p, existing = some p → wfParsed p)
    (hne : action_num = "2" → ∀ p, existing = some p → getVal p "about_file" ≠ some "")
    (hpre : pre_generation gen_location line action_num all_in_one existing
      = (some (loc, rec), ws)) :
    ∃ v, getVal rec "about_file" = some v ∧ v ≠ "" ∧ "about_file" ∈ bodyKeys rec
      ∧ (∀ s, format_output rec = some s →
          ∃ pre post, s = pre ++ ("about_file" ++ ": " ++ contLines v ++ "\n") ++ post) := by
  obtain ⟨⟨v0, hv0, hv0ne⟩, -⟩ := (read_input_keeps_iff line).mp hkeep
  obtain ⟨-, -, hcases⟩ := pre_generation_cases gen_location line action_num all_in_one
    existing loc rec ws hpre
  have hrec : ∃ v, getVal rec "about_file" = some v ∧ v ≠ "" := by
    rcases hcases with ⟨-, hrl⟩ | ⟨parsed, hex, -, hact⟩
    · exact ⟨v0, hrl ▸ hv0, hv0ne⟩
    · have hwp := hw parsed hex
      rcases hact with ⟨-, hrl⟩ | ⟨ha2, hrl⟩ | ⟨-, -, hrl⟩
      · exact ⟨v0, hrl ▸ fill_keeps_nonempty line parsed "about_file" v0 hv0 hv0ne, hv0ne⟩
      · cases hp : getVal parsed "about_file" with
        | none =>
          refine ⟨v0, ?_, hv0ne⟩
          rw [hrl, prefer_keeps line parsed "about_file" hwp hp]
          exact hv0
        | some w =>
          refine ⟨w, hrl ▸ prefer_overrides line parsed "about_file" w hwp hp, ?_⟩
          intro he
          exact hne ha2 parsed hex (he ▸ hp)
      · exact ⟨v0, hrl ▸ hv0, hv0ne⟩
  obtain ⟨v, hv, hvne⟩ := hrec
  have hmem : "about_file" ∈ bodyKeys rec := by
    rw [mem_bodyKeys]
    refine ⟨getVal_some_mem rec "about_file" v hv, by decide, Or.inl ?_, by decide⟩
    rw [hv]
    intro he
    exact hvne ((contLines_eq_empty v).mp he)
  refine ⟨v, hv, hvne, hmem, ?_⟩
  intro s hs
  obtain ⟨har, hnm, hvr⟩ := (format_output_some_iff rec).mp (by rw [hs]; rfl)
  obtain ⟨ar, har'⟩ := Option.isSome_iff_exists.mp har
  obtain ⟨nm, hnm'⟩ := Option.isSome_iff_exists.mp hnm
  obtain ⟨vr, hvr'⟩ := Option.isSome_iff_exists.mp hvr
  have hrepr := format_output_repr rec ar nm vr har' hnm' hvr'
  rw [hs] at hrepr
  have hseq := Option.some.inj hrepr
  have hrl : renderLine rec "about_file" ∈ (bodyKeys rec).map (renderLine rec) :=
    List.mem_map_of_mem (renderLine rec) hmem
  obtain ⟨l1, l2, hl⟩ := List.append_of_mem hrl
  have hjoin : String.join ((bodyKeys rec).map (renderLine rec))
      = String.join l1 ++ (renderLine rec "about_file" ++ String.join l2) := by
    rw [hl, join_split]
  have hline : renderLine rec "about_file" = "about_file" ++ ": " ++ contLines v ++ "\n" := by
    unfold renderLine
    rw [hv]
    rfl
  refine ⟨"about_resource: " ++ ar ++ "\n" ++ "name: " ++ nm ++ "\n" ++ "version: "
    ++ vr ++ "\n\n" ++ String.join l1, String.join l2, ?_⟩
  rw [hseq, hjoin, hline]
  simp only [String.append_assoc]

/-- C10 amended witness: a surviving row with no pre-existing target keeps its
about_file field, which is rendered in the serialized body. -/
theorem claim_about_file_line_amended_witness :
    ∃ v, getVal [("about_file", "f"), ("about_resource", "r"), ("name", "n"),
        ("version", "v")] "about_file" = some v ∧ v ≠ ""
      ∧ "about_file" ∈ bodyKeys [("about_file", "f"), ("about_resource", "r"),
          ("name", "n"), ("version", "v")]
      ∧ (∀ s, format_output [("about_file", "f"), ("about_resource", "r"),
            ("name", "n"), ("version", "v")] = some s →
          ∃ pre post, s = pre ++ ("about_file" ++ ": " ++ contLines v ++ "\n") ++ post) :=
  claim_about_file_line_amended "out"
    [("about_file", "f"), ("about_resource", "r"), ("name", "n"), ("version", "v")]
    "3" false none "out/f"
    [("about_file", "f"), ("about_resource", "r"), ("name", "n"), ("version", "v")] []
    (by decide) (fun p hp => Option.noConfusion hp) (fun _ p hp => Option.noConfusion hp)
    (by decide)
